import Mathlib

/-!
Verification development for the precision-code-editor edit protocol.

The definitions below are a shallow embedding, over `List Char`, of the
code in `src/precision-code-editor/src/tools/editCode.ts` and
`src/precision-code-editor/src/utils/diff.ts`.  JavaScript strings are
modelled as `List Char` (only character equality matters for these
functions, so the UTF-16 detail is irrelevant).  Each definition carries a
comment pointing at the source lines it embeds.
-/

namespace PrecisionEditor

/-- The dollar character, written out so that scanners of this file need not
parse the quoted character. -/
def dollarChar : Char := '$'

/-- The ampersand character. -/
def ampChar : Char := '&'

/-- The backquote character (code point 96). -/
def backquoteChar : Char := Char.ofNat 96

/-- The single-quote character (code point 39). -/
def singleQuoteChar : Char := Char.ofNat 39

/-- The opening curly bracket character (code point 123). -/
def lbraceChar : Char := Char.ofNat 123

/-- The closing curly bracket character (code point 125). -/
def rbraceChar : Char := Char.ofNat 125

/-- The backslash character. -/
def backslashChar : Char := '\\'

/-- The characters matched by the character class in `escapeRegExp`
(editCode.ts line 131): `. * + ? ^ $ open-brace close-brace ( ) | [ ] \`. -/
def regexMetaChars : List Char :=
  ['.', '*', '+', '?', '^', dollarChar, lbraceChar, rbraceChar,
   '(', ')', '|', '[', ']', backslashChar]

/-- Whether `c` is a regular-expression metacharacter escaped by
`escapeRegExp`. -/
def isRegexMeta (c : Char) : Bool := regexMetaChars.contains c

/-- Embedding of `escapeRegExp` (editCode.ts lines 130-132):
`string.replace(/[.*+?^${}()|[\]\\]/g, '\\$&')` puts a backslash in front of
every metacharacter occurrence (each match of the character class is a
single character, and `$&` in the replacement is that character). -/
def escapeRegExp : List Char → List Char
  | [] => []
  | c :: rest =>
    if isRegexMeta c then backslashChar :: c :: escapeRegExp rest
    else c :: escapeRegExp rest

/-- Reading of an escaped-literal regular expression as the sequence of
characters it matches.  A backslash followed by a metacharacter denotes that
literal character; a bare non-metacharacter denotes itself; anything else
(bare metacharacter, trailing backslash, backslash before a
non-metacharacter, whose JavaScript regex meaning may be a character class)
is conservatively rejected with `none`.  `escapeRegExp` only ever produces
patterns in the accepted fragment. -/
def lexEscaped : List Char → Option (List Char)
  | [] => some []
  | c :: rest =>
    if c = backslashChar then
      match rest with
      | [] => none
      | d :: rest2 =>
        if isRegexMeta d then (lexEscaped rest2).map (fun l => d :: l) else none
    else if isRegexMeta c then none
    else (lexEscaped rest).map (fun l => c :: l)

/-- Core of the occurrence counter.  `skip` is the number of characters of
the text still covered by the previous match (matches consume their span, as
the `g`-flag `lastIndex` does in `fileContent.match(regex)`); when `skip`
is zero and the pattern `p :: ps` starts at the current position, one
occurrence is counted and the scan resumes after it. -/
def countOccAux (p : Char) (ps : List Char) : List Char → Nat → Nat
  | [], _ => 0
  | _ :: rest, Nat.succ k => countOccAux p ps rest k
  | c :: rest, 0 =>
    if c = p ∧ ps.isPrefixOf rest then 1 + countOccAux p ps rest ps.length
    else countOccAux p ps rest 0

/-- Number of non-overlapping occurrences of the non-empty literal pattern
`pat` in `text`, scanning left to right.  For an empty pattern the handler
never reaches the matcher (the request is rejected first), so that case is
fixed arbitrarily to `0`. -/
def countOcc (pat text : List Char) : Nat :=
  match pat with
  | [] => 0
  | p :: ps => countOccAux p ps text 0

/-- Result of `(fileContent.match(new RegExp(escapeRegExp(old), 'g')) || []).length`
(editCode.ts line 51): the pattern is first escaped, the escaped pattern is
read back as a regular expression (a sequence of literal characters), and
the `g`-flag match counts its non-overlapping occurrences left to right.
If the escaped pattern fell outside the literal fragment the count is fixed
to `0`; the round-trip lemma below shows this never happens. -/
def codeMatchCount (pat text : List Char) : Nat :=
  match lexEscaped (escapeRegExp pat) with
  | some lits => countOcc lits text
  | none => 0

/-- ECMAScript `GetSubstitution` for a replacement template with no capture
groups (the escaped pattern contains no unescaped parentheses): `$$` yields
a dollar, `$&` yields the matched text, a dollar before a backquote yields
the part of the original text before the match, a dollar before a single
quote yields the part after the match, and any other character (including a
dollar not followed by one of these) is copied literally.  This is the
semantics `String.prototype.replace` applies to the string `newString` in
editCode.ts line 78. -/
def getSubstitution (matched before after : List Char) : List Char → List Char
  | [] => []
  | c :: rest =>
    if c = dollarChar then
      match rest with
      | [] => [c]
      | e :: rest2 =>
        if e = dollarChar then dollarChar :: getSubstitution matched before after rest2
        else if e = ampChar then matched ++ getSubstitution matched before after rest2
        else if e = backquoteChar then before ++ getSubstitution matched before after rest2
        else if e = singleQuoteChar then after ++ getSubstitution matched before after rest2
        else c :: getSubstitution matched before after (e :: rest2)
    else c :: getSubstitution matched before after rest

/-- Core of the global replacement.  `seen` is the original text already
scanned (needed by the dollar-backquote directive), `skip` the characters
still covered by the previous match (they produce no output: the match was
replaced as a whole). -/
def replaceScanAux (p : Char) (ps tmpl : List Char) :
    List Char → List Char → Nat → List Char
  | _, [], _ => []
  | seen, c :: rest, Nat.succ k => replaceScanAux p ps tmpl (seen ++ [c]) rest k
  | seen, c :: rest, 0 =>
    if c = p ∧ ps.isPrefixOf rest then
      getSubstitution (p :: ps) seen (rest.drop ps.length) tmpl ++
        replaceScanAux p ps tmpl (seen ++ [c]) rest ps.length
    else c :: replaceScanAux p ps tmpl (seen ++ [c]) rest 0

/-- `text.replace(new RegExp(...), tmpl)` restricted to a literal non-empty
pattern: every non-overlapping occurrence of `pat`, scanning left to right,
is replaced by the `GetSubstitution` expansion of `tmpl` at that match.
The empty-pattern case is again unreachable from the handler. -/
def replaceAllJS (pat tmpl text : List Char) : List Char :=
  match pat with
  | [] => text
  | p :: ps => replaceScanAux p ps tmpl [] text 0

/-- Embedding of `fileContent.replace(new RegExp(escapeRegExp(oldString), 'g'), newString)`
(editCode.ts line 78), through the same escape-then-read path as
`codeMatchCount`. -/
def codeReplace (pat tmpl text : List Char) : List Char :=
  match lexEscaped (escapeRegExp pat) with
  | some lits => replaceAllJS lits tmpl text
  | none => text

/-- Modelled from the spec: the `Replacing` stage as the specification words
it — substitute every occurrence of the old pattern with the new pattern
taken as literal text (spec section 4.6, `Replacing`).  This definition is
the comparison point for the refinement claims about the replacement; the
code's own replacement is `codeReplace` above. -/
def literalReplaceAux (p : Char) (ps tmpl : List Char) : List Char → Nat → List Char
  | [], _ => []
  | _ :: rest, Nat.succ k => literalReplaceAux p ps tmpl rest k
  | c :: rest, 0 =>
    if c = p ∧ ps.isPrefixOf rest then
      tmpl ++ literalReplaceAux p ps tmpl rest ps.length
    else c :: literalReplaceAux p ps tmpl rest 0

/-- Modelled from the spec: literal replacement of every non-overlapping
occurrence of `pat` by the template `tmpl`, verbatim. -/
def literalReplace (pat tmpl text : List Char) : List Char :=
  match pat with
  | [] => text
  | p :: ps => literalReplaceAux p ps tmpl text 0

/-- `true` when the template contains no replacement directive, i.e. no
dollar immediately followed by a dollar, an ampersand, a backquote or a
single quote.  On such templates `GetSubstitution` is the identity. -/
def noDirective : List Char → Bool
  | [] => true
  | [_] => true
  | c :: d :: rest =>
    (!(c == dollarChar &&
        (d == dollarChar || d == ampChar || d == backquoteChar || d == singleQuoteChar))) &&
    noDirective (d :: rest)

/-- Length of the longest common prefix of two lists — the value of the
cursor `i` after the first while loop of `characterDiff` (diff.ts lines
162-168): the loop stops at the first position where the strings differ or
where either string ends. -/
def lcpLen : List Char → List Char → Nat
  | a :: as, b :: bs => if a = b then lcpLen as bs + 1 else 0
  | _, _ => 0

/-- Result of `characterDiff` (diff.ts lines 158-193).  `pre` and `suf` are
the common prefix and suffix, `removed`/`added` the middle spans of the old
and new string, `diff` the rendered form
`prefix {- removed -}{+ added +} suffix`, and `changes` the larger middle
length. -/
structure CharDiffRes where
  pre : List Char
  removed : List Char
  added : List Char
  suf : List Char
  diff : List Char
  changes : Nat
deriving DecidableEq

/-- Embedding of `characterDiff` (diff.ts lines 158-193).  `i` is the
common-prefix scan (stopping at `maxLen = min` of the lengths); `j` is the
common-suffix scan, stopping either at the first disagreement from the right
(`lcpLen` of the reversals) or once `i + j` reaches `maxLen`, whichever is
first — hence the `min`. -/
def characterDiff (oldT newT : List Char) : CharDiffRes :=
  let maxLen := min oldT.length newT.length
  let i := lcpLen oldT newT
  let j := min (maxLen - i) (lcpLen oldT.reverse newT.reverse)
  let pre := oldT.take i
  let suf := oldT.drop (oldT.length - j)
  let removed := (oldT.take (oldT.length - j)).drop i
  let added := (newT.take (newT.length - j)).drop i
  { pre := pre
    removed := removed
    added := added
    suf := suf
    diff := pre ++ lbraceChar :: '-' :: (removed ++ '-' :: rbraceChar ::
      lbraceChar :: '+' :: (added ++ '+' :: rbraceChar :: suf))
    changes := max removed.length added.length }

/-- Embedding of the counting loop of `calculateSimilarity` (editCode.ts
lines 188-196): the number of aligned positions, up to the shorter length,
where the two strings hold the same character. -/
def matchCount : List Char → List Char → Nat
  | a :: as, b :: bs => (if a = b then 1 else 0) + matchCount as bs
  | _, _ => 0

/-- The similarity score of `calculateSimilarity` (editCode.ts line 198),
`matches / Math.max(a.length, b.length)`, modelled as an exact rational
(for both strings empty, JavaScript produces NaN and every comparison with
it is false; the rational convention 0/0 = 0 gives the same outcome for
the single comparison the program performs). -/
def calculateSimilarity (a b : List Char) : ℚ :=
  (matchCount a b : ℚ) / (max a.length b.length : ℚ)

/-- The boolean test `calculateSimilarity(testString, searchString) > 0.7`
of editCode.ts line 177, cross-multiplied into the natural numbers.  The
floating-point comparison agrees with the exact rational one for every
operand size a JavaScript string can reach (a disagreement would need the
ratio to lie within an interval of width below 2^-53 around 7/10, which
forces denominators beyond 2^53); the bridge lemma below relates this test
to the exact score. -/
def similarityAbove (a b : List Char) : Bool :=
  7 * max a.length b.length < 10 * matchCount a b

/-- The window `content.substr(i, searchString.length)` of editCode.ts
line 174: up to `search.length` characters of `content` starting at
offset `i`. -/
def windowAt (content search : List Char) (i : Nat) : List Char :=
  (content.drop i).take search.length

/-- The scanning loop of `findClosestMatch` (editCode.ts lines 173-180),
with `i` the current offset and `r` the number of iterations left
(`content.length - minLength - i` at entry). -/
def fcmLoop (content search : List Char) : Nat → Nat → Option CharDiffRes
  | _, 0 => none
  | i, Nat.succ r =>
    if similarityAbove (windowAt content search i) search then
      some (characterDiff (windowAt content search i) search)
    else fcmLoop content search (i + 1) r

/-- Embedding of `findClosestMatch` (editCode.ts lines 168-183):
`minLength = Math.floor(searchString.length * 0.5)` and the loop runs while
`i < content.length - minLength`, returning the character diff of the first
window whose similarity exceeds 0.7, or null. -/
def findClosestMatch (content search : List Char) : Option CharDiffRes :=
  fcmLoop content search 0 (content.length - search.length / 2)

/-- Kind of a line-diff entry (diff.ts lines 198-202). -/
inductive LineKind where
  | add
  | remove
deriving DecidableEq

/-- One entry of the line diff: its kind, a 1-based line number in the
sequence it belongs to, and the line's content. -/
structure LineDiffEntry where
  kind : LineKind
  line : Nat
  content : List Char
deriving DecidableEq

/-- JavaScript `findIndex` result: `-1` for no hit, else the index. -/
def jsIdx : Option Nat → Int
  | none => -1
  | some k => k

/-- Embedding of the `while` loop of `lineDiff` (diff.ts lines 19-63) on
the two remaining line sequences, carrying the consumed counts `i` and `j`.
`oldNext`/`newNext` are the `findIndex` lookaheads over the tails and the
branch condition is the source's
`(oldNext === -1 || newNext !== -1) && newNext < 3` verbatim. -/
def lineDiffAux : List (List Char) → List (List Char) → Nat → Nat → List LineDiffEntry
  | [], [], _, _ => []
  | [], n :: ns, i, j => ⟨.add, j + 1, n⟩ :: lineDiffAux [] ns i (j + 1)
  | o :: os, [], i, j => ⟨.remove, i + 1, o⟩ :: lineDiffAux os [] (i + 1) j
  | o :: os, n :: ns, i, j =>
    if o = n then lineDiffAux os ns (i + 1) (j + 1)
    else
      let oldNext := jsIdx (os.findIdx? (fun l => l = n))
      let newNext := jsIdx (ns.findIdx? (fun l => l = o))
      if (oldNext = -1 ∨ newNext ≠ -1) ∧ newNext < 3 then
        ⟨.remove, i + 1, o⟩ :: lineDiffAux os (n :: ns) (i + 1) j
      else
        ⟨.add, j + 1, n⟩ :: lineDiffAux (o :: os) ns i (j + 1)
termination_by o n => (o.length, n.length)

/-- Embedding of `lineDiff` (diff.ts lines 11-66) on line sequences (the
source first splits the two texts on the newline character; the claims give
the line sequences directly). -/
def lineDiff (oldLines newLines : List (List Char)) : List LineDiffEntry :=
  lineDiffAux oldLines newLines 0 0

/-- An edit request as destructured in editCode.ts lines 18-25; `filePath`
is not modelled (the file is passed to the handler directly) and
`newString` is always present. -/
structure EditReq where
  oldStr : List Char
  newStr : List Char
  createBackupFile : Bool
  expectedReplacements : Nat
  formatCode : Bool
deriving DecidableEq

/-- Outcome of a request, mirroring the JSON responses of editCode.ts:
`missingParams` the 400 of lines 27-33, `noMatch` the 400 of lines 53-66
(with the optional similarity suggestion), `countMismatch` the 400 of lines
68-75 (carrying `actualReplacements`), and `ok` the 200 of lines 107-117
(whether `backupPath` is non-null, `replacementCount`, `changesCount`,
`diff`, `formatted`). -/
inductive Outcome where
  | missingParams
  | noMatch (suggestion : Option CharDiffRes)
  | countMismatch (actualReplacements : Nat)
  | ok (backupPathPresent : Bool) (replacementCount : Nat)
      (changesCount : Nat) (diff : List Char) (formatted : Bool)
deriving DecidableEq

/-- Effects of a request on storage: the target file's content afterwards,
and whether a backup snapshot of it was made. -/
structure EditEffects where
  content : List Char
  backupCreated : Bool
deriving DecidableEq

/-- Embedding of `editCodeHandler` (editCode.ts lines 16-125) acting on the
current file content.  `fmt` abstracts the external formatter step (lines
81-98: the prettier call, the extension-to-parser selection, and its
error recovery — all out of scope per the specification); `createBackup`
(lines 41-48) is modelled as succeeding, since its failure is an external
I/O condition that the source merely logs and ignores.  The steps are in
source order: parameter check, read, backup, count, the two rejection
gates, replace, optional format, write, diff, response. -/
def editCodeHandler (fmt : List Char → List Char) (req : EditReq)
    (fileContent : List Char) : Outcome × EditEffects :=
  if req.oldStr.isEmpty then (.missingParams, ⟨fileContent, false⟩)
  else
    let backed := req.createBackupFile
    let n := codeMatchCount req.oldStr fileContent
    if n = 0 then
      (.noMatch (findClosestMatch fileContent req.oldStr), ⟨fileContent, backed⟩)
    else if n ≠ req.expectedReplacements then
      (.countMismatch n, ⟨fileContent, backed⟩)
    else
      let replaced := codeReplace req.oldStr req.newStr fileContent
      let final := if req.formatCode then fmt replaced else replaced
      let d := characterDiff req.oldStr req.newStr
      (.ok backed n d.changes d.diff req.formatCode, ⟨final, backed⟩)

/-! Round-trip of the escaping step: the escaped pattern reads back as the
sequence of the original pattern's characters, so the regular expression
built on editCode.ts line 51 matches the pattern literally. -/

theorem lexEscaped_escapeRegExp (p : List Char) :
    lexEscaped (escapeRegExp p) = some p := by
  induction p with
  | nil => rfl
  | cons c rest ih =>
    by_cases hm : isRegexMeta c = true
    · simp [escapeRegExp, lexEscaped, hm, ih]
    · have hcb : c ≠ backslashChar := by
        intro h
        rw [h] at hm
        exact hm (by decide)
      have hm' : isRegexMeta c = false := by
        cases hmeta : isRegexMeta c
        · rfl
        · exact absurd hmeta hm
      rw [escapeRegExp, if_neg hm, lexEscaped.eq_def]
      dsimp only
      rw [if_neg hcb, hm']
      simp [ih]

theorem codeMatchCount_eq_countOcc (pat text : List Char) :
    codeMatchCount pat text = countOcc pat text := by
  rw [codeMatchCount, lexEscaped_escapeRegExp]

theorem codeReplace_eq_replaceAllJS (pat tmpl text : List Char) :
    codeReplace pat tmpl text = replaceAllJS pat tmpl text := by
  rw [codeReplace, lexEscaped_escapeRegExp]

/-! Directive-free templates: on them the JavaScript substitution is the
verbatim insertion the specification describes. -/

theorem noDirective_tail {c : Char} {l : List Char}
    (h : noDirective (c :: l) = true) : noDirective l = true := by
  cases l with
  | nil => rfl
  | cons d rest => simp only [noDirective, Bool.and_eq_true] at h; exact h.2

theorem getSubstitution_eq_self {t : List Char} (m b a : List Char)
    (h : noDirective t = true) : getSubstitution m b a t = t := by
  induction t with
  | nil => rfl
  | cons c rest ih =>
    have hr := noDirective_tail h
    by_cases hc : c = dollarChar
    · cases rest with
      | nil =>
        rw [getSubstitution.eq_def]
        dsimp only
        rw [if_pos hc]
      | cons e rest2 =>
        have h6 : (!(c == dollarChar && (e == dollarChar || e == ampChar ||
            e == backquoteChar || e == singleQuoteChar))) = true ∧
            noDirective (e :: rest2) = true := by
          simpa only [noDirective, Bool.and_eq_true] using h
        have h5 := h6.1
        rw [hc] at h5
        have h1 : e ≠ dollarChar := by
          intro he; rw [he] at h5; exact absurd h5 (by decide)
        have h2 : e ≠ ampChar := by
          intro he; rw [he] at h5; exact absurd h5 (by decide)
        have h3 : e ≠ backquoteChar := by
          intro he; rw [he] at h5; exact absurd h5 (by decide)
        have h4 : e ≠ singleQuoteChar := by
          intro he; rw [he] at h5; exact absurd h5 (by decide)
        rw [getSubstitution.eq_def]
        dsimp only
        rw [if_pos hc, if_neg h1, if_neg h2, if_neg h3, if_neg h4, ih hr]
    · rw [getSubstitution.eq_def]
      dsimp only
      rw [if_neg hc, ih hr]

theorem replaceScanAux_eq_literal {tmpl : List Char} (p : Char) (ps : List Char)
    (ht : noDirective tmpl = true) :
    ∀ (text seen : List Char) (skip : Nat),
      replaceScanAux p ps tmpl seen text skip =
        literalReplaceAux p ps tmpl text skip := by
  intro text
  induction text with
  | nil => intro seen skip; cases skip <;> rfl
  | cons c rest ih =>
    intro seen skip
    cases skip with
    | succ k => simp only [replaceScanAux, literalReplaceAux, ih]
    | zero =>
      by_cases hm : c = p ∧ ps.isPrefixOf rest = true
      · simp only [replaceScanAux, literalReplaceAux, if_pos hm,
          getSubstitution_eq_self _ _ _ ht, ih]
      · simp only [replaceScanAux, literalReplaceAux, if_neg hm, ih]

theorem literalReplaceAux_skip (p : Char) (ps t rest : List Char) (x : Char)
    (k : Nat) :
    literalReplaceAux p ps t (x :: rest) (k + 1) = literalReplaceAux p ps t rest k :=
  rfl

theorem literalReplaceAux_append (p : Char) (ps t : List Char) :
    ∀ (xs ys : List Char),
      literalReplaceAux p ps t (xs ++ ys) xs.length =
        literalReplaceAux p ps t ys 0 := by
  intro xs
  induction xs with
  | nil => intro ys; rfl
  | cons x xs ih =>
    intro ys
    rw [List.cons_append, List.length_cons, literalReplaceAux_skip, ih]

theorem literalReplaceAux_self (p : Char) (ps : List Char) :
    ∀ (n : Nat) (text : List Char), text.length ≤ n →
      literalReplaceAux p ps (p :: ps) text 0 = text := by
  intro n
  induction n with
  | zero =>
    intro text h
    have : text = [] := List.length_eq_zero.mp (Nat.le_zero.mp h)
    subst this; rfl
  | succ n ih =>
    intro text h
    cases text with
    | nil => rfl
    | cons c rest =>
      by_cases hm : c = p ∧ ps.isPrefixOf rest = true
      · obtain ⟨hc, hpre⟩ := hm
        have hsplit : ps ++ rest.drop ps.length = rest :=
          List.prefix_iff_eq_append.mp (List.isPrefixOf_iff_prefix.mp hpre)
        have hlen : (rest.drop ps.length).length ≤ n := by
          have := List.length_drop ps.length rest
          simp only [List.length_cons] at h
          omega
        calc literalReplaceAux p ps (p :: ps) (c :: rest) 0
            = (p :: ps) ++ literalReplaceAux p ps (p :: ps) rest ps.length := by
              simp [literalReplaceAux, hc, hpre]
          _ = (p :: ps) ++ literalReplaceAux p ps (p :: ps)
                (ps ++ rest.drop ps.length) ps.length := by rw [hsplit]
          _ = (p :: ps) ++ literalReplaceAux p ps (p :: ps)
                (rest.drop ps.length) 0 := by
              rw [literalReplaceAux_append]
          _ = (p :: ps) ++ rest.drop ps.length := by rw [ih _ hlen]
          _ = c :: rest := by rw [hc]; simp [hsplit]
      · have hrest : rest.length ≤ n := by
          simp only [List.length_cons] at h; omega
        have e1 : literalReplaceAux p ps (p :: ps) (c :: rest) 0 =
            if c = p ∧ ps.isPrefixOf rest = true then
              (p :: ps) ++ literalReplaceAux p ps (p :: ps) rest ps.length
            else c :: literalReplaceAux p ps (p :: ps) rest 0 := rfl
        rw [e1, if_neg hm, ih rest hrest]

theorem literalReplace_self {pat : List Char} (h : pat ≠ []) (text : List Char) :
    literalReplace pat pat text = text := by
  cases pat with
  | nil => exact absurd rfl h
  | cons p ps => exact literalReplaceAux_self p ps text.length text le_rfl

/-! Facts about the common-prefix length and the character diff. -/

theorem lcpLen_le (a : List Char) : ∀ b, lcpLen a b ≤ min a.length b.length := by
  induction a with
  | nil => intro b; simp [lcpLen]
  | cons x xs ih =>
    intro b
    cases b with
    | nil => simp [lcpLen]
    | cons y ys =>
      by_cases hxy : x = y
      · have := ih ys
        simp only [lcpLen, if_pos hxy, List.length_cons]
        omega
      · simp [lcpLen, hxy]

theorem take_eq_of_le_lcpLen (a : List Char) :
    ∀ b k, k ≤ lcpLen a b → a.take k = b.take k := by
  induction a with
  | nil =>
    intro b k h
    have : k = 0 := by simpa [lcpLen] using h
    simp [this]
  | cons x xs ih =>
    intro b k h
    cases b with
    | nil =>
      have : k = 0 := by simpa [lcpLen] using h
      simp [this]
    | cons y ys =>
      by_cases hxy : x = y
      · cases k with
        | zero => simp
        | succ k =>
          simp only [lcpLen, if_pos hxy] at h
          simp only [List.take_succ_cons, hxy, ih ys k (by omega)]
      · simp only [lcpLen, if_neg hxy] at h
        have : k = 0 := by omega
        simp [this]

theorem lcpLen_self (l : List Char) : lcpLen l l = l.length := by
  induction l with
  | nil => rfl
  | cons x xs ih => simp [lcpLen, ih]

theorem drop_eq_of_suffix_agree {a b : List Char} {k : Nat}
    (h : k ≤ lcpLen a.reverse b.reverse) :
    a.drop (a.length - k) = b.drop (b.length - k) := by
  have htake : a.reverse.take k = b.reverse.take k :=
    take_eq_of_le_lcpLen a.reverse b.reverse k h
  have ha : a.reverse.take k = (a.drop (a.length - k)).reverse := List.take_reverse
  have hb : b.reverse.take k = (b.drop (b.length - k)).reverse := List.take_reverse
  rw [ha, hb] at htake
  exact List.reverse_injective htake

theorem take_drop_split (l : List Char) (i j : Nat) (h : i + j ≤ l.length) :
    l.take i ++ ((l.take (l.length - j)).drop i ++ l.drop (l.length - j)) = l := by
  have hi : i ≤ l.length - j := by omega
  have h1 : l.take i = (l.take (l.length - j)).take i := by
    rw [List.take_take, min_eq_left hi]
  rw [h1, ← List.append_assoc, List.take_append_drop, List.take_append_drop]

theorem characterDiff_pre_eq (oldT newT : List Char) :
    (characterDiff oldT newT).pre = oldT.take (lcpLen oldT newT) := rfl

theorem characterDiff_suf_eq (oldT newT : List Char) :
    (characterDiff oldT newT).suf = oldT.drop (oldT.length -
      min (min oldT.length newT.length - lcpLen oldT newT)
        (lcpLen oldT.reverse newT.reverse)) := rfl

theorem characterDiff_removed_eq (oldT newT : List Char) :
    (characterDiff oldT newT).removed = (oldT.take (oldT.length -
      min (min oldT.length newT.length - lcpLen oldT newT)
        (lcpLen oldT.reverse newT.reverse))).drop (lcpLen oldT newT) := rfl

theorem characterDiff_added_eq (oldT newT : List Char) :
    (characterDiff oldT newT).added = (newT.take (newT.length -
      min (min oldT.length newT.length - lcpLen oldT newT)
        (lcpLen oldT.reverse newT.reverse))).drop (lcpLen oldT newT) := rfl

theorem characterDiff_changes_eq (oldT newT : List Char) :
    (characterDiff oldT newT).changes =
      max (characterDiff oldT newT).removed.length
        (characterDiff oldT newT).added.length := rfl

theorem characterDiff_old_decomp (oldT newT : List Char) :
    (characterDiff oldT newT).pre ++ ((characterDiff oldT newT).removed ++
      (characterDiff oldT newT).suf) = oldT := by
  have hle := lcpLen_le oldT newT
  have hij : lcpLen oldT newT + min (min oldT.length newT.length - lcpLen oldT newT)
      (lcpLen oldT.reverse newT.reverse) ≤ oldT.length := by omega
  exact take_drop_split oldT _ _ hij

theorem characterDiff_new_decomp (oldT newT : List Char) :
    (characterDiff oldT newT).pre ++ ((characterDiff oldT newT).added ++
      (characterDiff oldT newT).suf) = newT := by
  have hle := lcpLen_le oldT newT
  have hpre : oldT.take (lcpLen oldT newT) = newT.take (lcpLen oldT newT) :=
    take_eq_of_le_lcpLen oldT newT _ le_rfl
  have hsuf : oldT.drop (oldT.length -
        min (min oldT.length newT.length - lcpLen oldT newT)
          (lcpLen oldT.reverse newT.reverse)) =
      newT.drop (newT.length -
        min (min oldT.length newT.length - lcpLen oldT newT)
          (lcpLen oldT.reverse newT.reverse)) :=
    drop_eq_of_suffix_agree (min_le_right _ _)
  have hij : lcpLen oldT newT + min (min oldT.length newT.length - lcpLen oldT newT)
      (lcpLen oldT.reverse newT.reverse) ≤ newT.length := by omega
  rw [characterDiff_pre_eq, characterDiff_added_eq, characterDiff_suf_eq, hpre, hsuf]
  exact take_drop_split newT _ _ hij

/-! Facts about the similarity score and the window scan. -/

theorem matchCount_le_left (a : List Char) : ∀ b, matchCount a b ≤ a.length := by
  induction a with
  | nil => intro b; simp [matchCount]
  | cons x xs ih =>
    intro b
    cases b with
    | nil => simp [matchCount]
    | cons y ys =>
      have := ih ys
      by_cases hxy : x = y <;> simp [matchCount, hxy] <;> omega

theorem similarityAbove_iff (a b : List Char) :
    similarityAbove a b = true ↔ (7 : ℚ)/10 < calculateSimilarity a b := by
  rcases Nat.eq_zero_or_pos (max a.length b.length) with h0 | hpos
  · have ha : a = [] := List.length_eq_zero.mp (by omega)
    have hb : b = [] := List.length_eq_zero.mp (by omega)
    subst ha; subst hb
    constructor
    · intro h; exact absurd h (by decide)
    · intro h
      rw [calculateSimilarity] at h
      norm_num [matchCount] at h
  · have hM : (0 : ℚ) < (max a.length b.length : ℚ) := by exact_mod_cast hpos
    rw [calculateSimilarity]
    constructor
    · intro h
      have hnat : 7 * max a.length b.length < 10 * matchCount a b := by
        simpa [similarityAbove] using h
      rw [div_lt_div_iff₀ (by norm_num) hM]
      have hswap : 7 * max a.length b.length < matchCount a b * 10 := by omega
      exact_mod_cast hswap
    · intro h
      rw [div_lt_div_iff₀ (by norm_num) hM] at h
      have hnat : 7 * max a.length b.length < matchCount a b * 10 := by exact_mod_cast h
      simp only [similarityAbove, decide_eq_true_eq]
      omega

theorem similarityAbove_false_iff (a b : List Char) :
    similarityAbove a b = false ↔ calculateSimilarity a b ≤ (7 : ℚ)/10 := by
  rw [← not_lt, ← similarityAbove_iff, Bool.not_eq_true, Bool.eq_false_iff, ne_eq,
    Bool.not_eq_true]

theorem windowAt_length (content search : List Char) (i : Nat) :
    (windowAt content search i).length = min search.length (content.length - i) := by
  simp [windowAt]

theorem similarityAbove_far (content search : List Char) (i : Nat)
    (h : content.length - search.length / 2 ≤ i) :
    similarityAbove (windowAt content search i) search = false := by
  have hmc := matchCount_le_left (windowAt content search i) search
  have hwl := windowAt_length content search i
  have hmax : max (windowAt content search i).length search.length = search.length := by
    apply Nat.max_eq_right
    rw [hwl]
    exact Nat.le_trans (Nat.min_le_left _ _) le_rfl
  simp only [similarityAbove, decide_eq_false_iff_not, not_lt, hmax]
  have hwin : (windowAt content search i).length ≤ search.length / 2 ∨
      (windowAt content search i).length ≤ search.length := by
    rw [hwl]; omega
  rcases hwin with hw | hw <;> omega

theorem fcmLoop_zero (content search : List Char) (i : Nat) :
    fcmLoop content search i 0 = none := rfl

theorem fcmLoop_succ (content search : List Char) (i r : Nat) :
    fcmLoop content search i (r + 1) =
      if similarityAbove (windowAt content search i) search then
        some (characterDiff (windowAt content search i) search)
      else fcmLoop content search (i + 1) r := rfl

theorem fcmLoop_eq_none_iff (content search : List Char) :
    ∀ (r i : Nat), fcmLoop content search i r = none ↔
      ∀ m, i ≤ m → m < i + r →
        similarityAbove (windowAt content search m) search = false := by
  intro r
  induction r with
  | zero =>
    intro i
    constructor
    · intro _ m hm1 hm2; omega
    · intro _; rfl
  | succ r ih =>
    intro i
    rw [fcmLoop_succ]
    by_cases hsim : similarityAbove (windowAt content search i) search = true
    · rw [if_pos hsim]
      constructor
      · intro h; exact absurd h (by simp)
      · intro h
        have := h i le_rfl (by omega)
        rw [hsim] at this
        exact absurd this (by simp)
    · have hsim' : similarityAbove (windowAt content search i) search = false :=
        Bool.eq_false_iff.mpr hsim
      rw [if_neg (by simp [hsim'])]
      rw [ih (i + 1)]
      constructor
      · intro h m hm1 hm2
        rcases Nat.eq_or_lt_of_le hm1 with he | hlt
        · rw [← he]; exact hsim'
        · exact h m hlt (by omega)
      · intro h m hm1 hm2
        exact h m (by omega) (by omega)

theorem fcmLoop_eq_some (content search : List Char) :
    ∀ (r i : Nat) (d : CharDiffRes), fcmLoop content search i r = some d →
      ∃ k, i ≤ k ∧ k < i + r ∧
        similarityAbove (windowAt content search k) search = true ∧
        (∀ m, i ≤ m → m < k →
          similarityAbove (windowAt content search m) search = false) ∧
        d = characterDiff (windowAt content search k) search := by
  intro r
  induction r with
  | zero => intro i d h; exact absurd h (by simp [fcmLoop_zero])
  | succ r ih =>
    intro i d h
    rw [fcmLoop_succ] at h
    by_cases hsim : similarityAbove (windowAt content search i) search = true
    · rw [if_pos hsim] at h
      refine ⟨i, le_rfl, by omega, hsim, ?_, ?_⟩
      · intro m hm1 hm2; omega
      · exact (Option.some_injective _ h).symm
    · have hsim' : similarityAbove (windowAt content search i) search = false :=
        Bool.eq_false_iff.mpr hsim
      rw [if_neg (by simp [hsim'])] at h
      obtain ⟨k, hk1, hk2, hk3, hk4, hk5⟩ := ih (i + 1) d h
      refine ⟨k, by omega, by omega, hk3, ?_, hk5⟩
      intro m hm1 hm2
      rcases Nat.eq_or_lt_of_le hm1 with he | hlt
      · rw [← he]; exact hsim'
      · exact hk4 m hlt hm2

/-! Facts about the handler's control flow. -/

theorem editCodeHandler_success (fmt : List Char → List Char)
    (P N B : List Char) (cb : Bool) (e : Nat)
    (hP : P ≠ []) (hc : countOcc P B = e) (he : 0 < e) :
    editCodeHandler fmt ⟨P, N, cb, e, false⟩ B =
      (Outcome.ok cb e (characterDiff P N).changes (characterDiff P N).diff false,
        ⟨codeReplace P N B, cb⟩) := by
  have hne : P.isEmpty = false := by
    cases P with
    | nil => exact absurd rfl hP
    | cons x xs => rfl
  have hcount : codeMatchCount P B = e := by rw [codeMatchCount_eq_countOcc, hc]
  simp [editCodeHandler, hne, hcount, he.ne']

theorem editCodeHandler_reject_content (fmt : List Char → List Char)
    (req : EditReq) (B : List Char)
    (h : (∃ s, (editCodeHandler fmt req B).1 = Outcome.noMatch s) ∨
      (∃ n, (editCodeHandler fmt req B).1 = Outcome.countMismatch n)) :
    (editCodeHandler fmt req B).2.content = B := by
  by_cases h1 : req.oldStr.isEmpty = true
  · simp [editCodeHandler, h1]
  · by_cases h2 : codeMatchCount req.oldStr B = 0
    · simp [editCodeHandler, h1, h2]
    · by_cases h3 : codeMatchCount req.oldStr B = req.expectedReplacements
      · have h4 : req.expectedReplacements ≠ 0 := h3 ▸ h2
        simp [editCodeHandler, h1, h2, h3, h4] at h
      · simp [editCodeHandler, h1, h2, h3]

theorem editCodeHandler_backup (fmt : List Char → List Char)
    (req : EditReq) (B : List Char) (h : req.oldStr ≠ []) :
    (editCodeHandler fmt req B).2.backupCreated = req.createBackupFile := by
  have hne : req.oldStr.isEmpty = false := by
    cases hh : req.oldStr with
    | nil => exact absurd hh h
    | cons x xs => rfl
  by_cases h2 : codeMatchCount req.oldStr B = 0
  · simp [editCodeHandler, hne, h2]
  · by_cases h3 : codeMatchCount req.oldStr B = req.expectedReplacements
    · have h4 : req.expectedReplacements ≠ 0 := h3 ▸ h2
      simp [editCodeHandler, hne, h2, h3, h4]
    · simp [editCodeHandler, hne, h2, h3]

theorem replaceAllJS_eq_literalReplace {tmpl : List Char} (pat text : List Char)
    (hN : noDirective tmpl = true) :
    replaceAllJS pat tmpl text = literalReplace pat tmpl text := by
  cases pat with
  | nil => rfl
  | cons p ps => exact replaceScanAux_eq_literal p ps hN text [] 0

theorem changes_zero_iff_eq (oldT newT : List Char) :
    (characterDiff oldT newT).changes = 0 ↔ oldT = newT := by
  constructor
  · intro h
    have h1 := characterDiff_old_decomp oldT newT
    have h2 := characterDiff_new_decomp oldT newT
    rw [characterDiff_changes_eq] at h
    obtain ⟨hr0, ha0⟩ := Nat.max_eq_zero_iff.mp h
    rw [List.length_eq_zero.mp hr0] at h1
    rw [List.length_eq_zero.mp ha0] at h2
    rw [List.nil_append] at h1 h2
    exact h1.symm.trans h2
  · intro h
    subst h
    rw [characterDiff_changes_eq, characterDiff_removed_eq, characterDiff_added_eq,
      lcpLen_self]
    simp

/-! The ten claims. -/

/-- C1 (counterexample): the file content `a` contains the pattern `a`
exactly once, as expected, yet the content written back is a single dollar
character — not the two-dollar `newPattern` the claim promises: the
replacement template passes through the JavaScript substitution rules, in
which a double dollar collapses to one dollar. -/
theorem edit_literal_replacement_cex :
    countOcc ['a'] ['a'] = 1 ∧
    literalReplace ['a'] [dollarChar, dollarChar] ['a'] = [dollarChar, dollarChar] ∧
    (editCodeHandler id ⟨['a'], [dollarChar, dollarChar], true, 1, false⟩ ['a']).2.content =
      [dollarChar] := by
  decide

/-- C1 (amended): for every file whose content contains the non-empty
literal `oldPattern` exactly `expectedReplacements` (positive) times, and
whose `newPattern` contains no substitution directive (no dollar
immediately followed by a dollar, ampersand, backquote or single quote),
the edit succeeds: the content written back is the original content with
every occurrence of `oldPattern` replaced literally by `newPattern`, and
the outcome reports success with `replacementCount = expectedReplacements`
(and a backup path exactly when one was requested). -/
theorem edit_success_literal_replacement (fmt : List Char → List Char)
    (P N B : List Char) (cb : Bool) (e : Nat)
    (hP : P ≠ []) (hc : countOcc P B = e) (he : 0 < e)
    (hN : noDirective N = true) :
    editCodeHandler fmt ⟨P, N, cb, e, false⟩ B =
      (Outcome.ok cb e (characterDiff P N).changes (characterDiff P N).diff false,
        ⟨literalReplace P N B, cb⟩) := by
  rw [editCodeHandler_success fmt P N B cb e hP hc he, codeReplace_eq_replaceAllJS,
    replaceAllJS_eq_literalReplace P B hN]

/-- C1 (witness): the specification's end-to-end example — replacing
`Hello world!` by `Hi there!` once in `Hello world!\nGoodbye.\n` with a
backup requested succeeds with one replacement, a backup, and the final
content `Hi there!\nGoodbye.\n`. -/
theorem edit_success_literal_replacement_witness :
    editCodeHandler id
        ⟨['H','e','l','l','o',' ','w','o','r','l','d','!'],
         ['H','i',' ','t','h','e','r','e','!'], true, 1, false⟩
        ['H','e','l','l','o',' ','w','o','r','l','d','!','\n',
         'G','o','o','d','b','y','e','.','\n'] =
      (Outcome.ok true 1
          (characterDiff ['H','e','l','l','o',' ','w','o','r','l','d','!']
            ['H','i',' ','t','h','e','r','e','!']).changes
          (characterDiff ['H','e','l','l','o',' ','w','o','r','l','d','!']
            ['H','i',' ','t','h','e','r','e','!']).diff false,
        ⟨['H','i',' ','t','h','e','r','e','!','\n','G','o','o','d','b','y','e','.','\n'],
          true⟩) :=
  (edit_success_literal_replacement id
      ['H','e','l','l','o',' ','w','o','r','l','d','!']
      ['H','i',' ','t','h','e','r','e','!']
      ['H','e','l','l','o',' ','w','o','r','l','d','!','\n',
       'G','o','o','d','b','y','e','.','\n'] true 1
      (by decide) (by decide) (by decide) (by decide)).trans (by decide)

/-- C2: the Matcher of editCode.ts line 51 — escape the pattern, build a
global regular expression from it, count the matches — equals the count of
non-overlapping left-to-right occurrences of the pattern taken as literal
text, for every buffer and every non-empty pattern, in particular when the
pattern contains regular-expression metacharacters. -/
theorem matcher_counts_literal (B P : List Char) (h : P ≠ []) :
    codeMatchCount P B = countOcc P B :=
  codeMatchCount_eq_countOcc P B

/-- C2 (witness): the pattern `a.b*c`, all metacharacters literal, is
counted exactly once in `xa.b*cyab` by the code's escaped-regex count. -/
theorem matcher_counts_literal_witness :
    codeMatchCount ['a','.','b','*','c'] ['x','a','.','b','*','c','y','a','b'] =
      countOcc ['a','.','b','*','c'] ['x','a','.','b','*','c','y','a','b'] ∧
    countOcc ['a','.','b','*','c'] ['x','a','.','b','*','c','y','a','b'] = 1 :=
  ⟨matcher_counts_literal ['x','a','.','b','*','c','y','a','b'] ['a','.','b','*','c']
    (by decide), by decide⟩

/-- C3: a request rejected with `NoMatch` or `CountMismatch` leaves the
file content exactly as it was — the handler returns before the write. -/
theorem rejected_edit_no_write (fmt : List Char → List Char)
    (req : EditReq) (B : List Char)
    (h : (∃ s, (editCodeHandler fmt req B).1 = Outcome.noMatch s) ∨
      (∃ n, (editCodeHandler fmt req B).1 = Outcome.countMismatch n)) :
    (editCodeHandler fmt req B).2.content = B :=
  editCodeHandler_reject_content fmt req B h

/-- C3 (witness): a request for the absent pattern `x` against `abc` is
rejected and the content stays `abc`. -/
theorem rejected_edit_no_write_witness :
    (editCodeHandler id ⟨['x'], ['y'], true, 1, false⟩ ['a','b','c']).2.content =
      ['a','b','c'] :=
  rejected_edit_no_write id ⟨['x'], ['y'], true, 1, false⟩ ['a','b','c']
    (Or.inl ⟨none, by decide⟩)

/-- C4: the character diff decomposes both inputs around the shared edges:
`pre ++ removed ++ suf` is the old string and `pre ++ added ++ suf` is the
new string. -/
theorem characterDiff_roundtrip (oldT newT : List Char) :
    (characterDiff oldT newT).pre ++ ((characterDiff oldT newT).removed ++
        (characterDiff oldT newT).suf) = oldT ∧
    (characterDiff oldT newT).pre ++ ((characterDiff oldT newT).added ++
        (characterDiff oldT newT).suf) = newT :=
  ⟨characterDiff_old_decomp oldT newT, characterDiff_new_decomp oldT newT⟩

/-- C5: whenever the occurrence count is non-zero and differs from
`expectedReplacements`, the handler answers `CountMismatch` carrying the
actual count, not the expected one. -/
theorem count_mismatch_reports_actual (fmt : List Char → List Char)
    (P N B : List Char) (cb fc : Bool) (e : Nat)
    (hP : P ≠ []) (h0 : countOcc P B ≠ 0) (hne : countOcc P B ≠ e) :
    (editCodeHandler fmt ⟨P, N, cb, e, fc⟩ B).1 =
      Outcome.countMismatch (countOcc P B) := by
  have hne' : P.isEmpty = false := by
    cases P with
    | nil => exact absurd rfl hP
    | cons x xs => rfl
  simp [editCodeHandler, hne', codeMatchCount_eq_countOcc, h0, hne]

/-- C5 (witness): the specification's example — expecting one replacement
against a buffer holding the pattern twice fails with actual count 2. -/
theorem count_mismatch_reports_actual_witness :
    (editCodeHandler id ⟨['a'], ['b'], true, 1, false⟩ ['a','x','a']).1 =
      Outcome.countMismatch 2 :=
  (count_mismatch_reports_actual id ['a'] ['b'] ['a','x','a'] true false 1
    (by decide) (by decide) (by decide)).trans (by decide)

/-- C6: the similarity finder returns no suggestion exactly when no window
scores above 7/10, and when it returns a suggestion, the suggestion is the
character diff of the window at the smallest offset whose positional
similarity score strictly exceeds 7/10, every earlier window scoring at
most 7/10. -/
theorem similarity_finder_first_above_threshold (content search : List Char) :
    (findClosestMatch content search = none ↔
      ∀ i, calculateSimilarity (windowAt content search i) search ≤ (7 : ℚ)/10) ∧
    (∀ d, findClosestMatch content search = some d →
      ∃ k, (7 : ℚ)/10 < calculateSimilarity (windowAt content search k) search ∧
        (∀ m, m < k →
          calculateSimilarity (windowAt content search m) search ≤ (7 : ℚ)/10) ∧
        d = characterDiff (windowAt content search k) search) := by
  constructor
  · rw [findClosestMatch, fcmLoop_eq_none_iff]
    constructor
    · intro h i
      by_cases hi : i < content.length - search.length / 2
      · exact (similarityAbove_false_iff _ _).mp (h i (by omega) (by omega))
      · exact (similarityAbove_false_iff _ _).mp
          (similarityAbove_far content search i (by omega))
    · intro h m _ _
      exact (similarityAbove_false_iff _ _).mpr (h m)
  · intro d hd
    rw [findClosestMatch] at hd
    obtain ⟨k, _, _, hk3, hk4, hk5⟩ := fcmLoop_eq_some content search _ 0 d hd
    exact ⟨k, (similarityAbove_iff _ _).mp hk3,
      fun m hm => (similarityAbove_false_iff _ _).mp (hk4 m (Nat.zero_le m) hm), hk5⟩

/-- C6 (witness): scanning `abcd` for `abcx` returns the diff of the very
first window, which scores 3/4 and is preceded by no window at all. -/
theorem similarity_finder_first_above_threshold_witness :
    ∃ k, (7 : ℚ)/10 <
        calculateSimilarity (windowAt ['a','b','c','d'] ['a','b','c','x'] k)
          ['a','b','c','x'] ∧
      (∀ m, m < k →
        calculateSimilarity (windowAt ['a','b','c','d'] ['a','b','c','x'] m)
          ['a','b','c','x'] ≤ (7 : ℚ)/10) ∧
      characterDiff ['a','b','c','d'] ['a','b','c','x'] =
        characterDiff (windowAt ['a','b','c','d'] ['a','b','c','x'] k)
          ['a','b','c','x'] :=
  (similarity_finder_first_above_threshold ['a','b','c','d'] ['a','b','c','x']).2
    (characterDiff ['a','b','c','d'] ['a','b','c','x']) (by decide)

/-- C7 (counterexample): a request whose pattern `x` does not occur in the
file `ab` is rejected with `NoMatch`, yet a backup was created — the code
snapshots the file before running the match-count validation, not after. -/
theorem backup_before_validation_cex :
    (editCodeHandler id ⟨['x'], ['y'], true, 1, false⟩ ['a','b']).1 =
      Outcome.noMatch none ∧
    (editCodeHandler id ⟨['x'], ['y'], true, 1, false⟩ ['a','b']).2.backupCreated =
      true := by
  decide

/-- C7 (amended): the backup snapshot is attempted before match-count
validation: once the parameter check passes, a backup is created exactly
when `createBackup` was requested, in every outcome — including requests
rejected with `NoMatch` or `CountMismatch` (the state order is Reading,
then BackingUp, then Validating). -/
theorem backup_attempted_before_validation (fmt : List Char → List Char)
    (req : EditReq) (B : List Char) (h : req.oldStr ≠ []) :
    (editCodeHandler fmt req B).2.backupCreated = req.createBackupFile :=
  editCodeHandler_backup fmt req B h

/-- C7 (witness): a rejected request with `createBackup = true` has created
a backup. -/
theorem backup_attempted_before_validation_witness :
    (editCodeHandler id ⟨['q'], ['y'], true, 1, false⟩ ['a','b']).2.backupCreated =
      true :=
  backup_attempted_before_validation id ⟨['q'], ['y'], true, 1, false⟩ ['a','b']
    (by decide)

/-- C8 (counterexample): the buffer of two dollars contains the pattern of
two dollars exactly once, the request replaces it by itself, yet the
resulting buffer is a single dollar — self-replacement is not idempotent
when the pattern carries a substitution directive. -/
theorem self_edit_dollar_cex :
    countOcc [dollarChar, dollarChar] [dollarChar, dollarChar] = 1 ∧
    (editCodeHandler id
        ⟨[dollarChar, dollarChar], [dollarChar, dollarChar], true, 1, false⟩
        [dollarChar, dollarChar]).2.content = [dollarChar] ∧
    [dollarChar] ≠ [dollarChar, dollarChar] := by
  decide

/-- C8 (amended): an edit whose `oldPattern` equals its `newPattern`, for a
pattern free of substitution directives that occurs the expected (positive)
number of times, is idempotent: the resulting buffer equals the original
and the reported `changesCount` is zero. -/
theorem self_edit_idempotent (fmt : List Char → List Char)
    (P B : List Char) (cb : Bool) (e : Nat)
    (hP : P ≠ []) (hc : countOcc P B = e) (he : 0 < e)
    (hN : noDirective P = true) :
    (editCodeHandler fmt ⟨P, P, cb, e, false⟩ B).2.content = B ∧
    (editCodeHandler fmt ⟨P, P, cb, e, false⟩ B).1 =
      Outcome.ok cb e 0 (characterDiff P P).diff false := by
  have h1 := editCodeHandler_success fmt P P B cb e hP hc he
  have hz : (characterDiff P P).changes = 0 := (changes_zero_iff_eq P P).mpr rfl
  constructor
  · rw [h1]
    show codeReplace P P B = B
    rw [codeReplace_eq_replaceAllJS, replaceAllJS_eq_literalReplace P B hN,
      literalReplace_self hP]
  · rw [h1, hz]

/-- C8 (witness): replacing `a` by `a` twice in `ara` returns the buffer
unchanged with zero reported changes. -/
theorem self_edit_idempotent_witness :
    (editCodeHandler id ⟨['a'], ['a'], true, 2, false⟩ ['a','r','a']).2.content =
      ['a','r','a'] ∧
    (editCodeHandler id ⟨['a'], ['a'], true, 2, false⟩ ['a','r','a']).1 =
      Outcome.ok true 2 0 (characterDiff ['a'] ['a']).diff false :=
  self_edit_idempotent id ['a'] ['a','r','a'] true 2
    (by decide) (by decide) (by decide) (by decide)

/-- C9 (counterexample): the line diff of `a b c` against `a x c` has four
entries, not the two the claim states. -/
theorem lineDiff_abc_axc_length :
    (lineDiff [['a'], ['b'], ['c']] [['a'], ['x'], ['c']]).length = 4 := by
  simp [lineDiff, lineDiffAux, jsIdx]

/-- C9 (amended): the line diff of `a b c` against `a x c` yields exactly
four entries — Remove `b` at line 2, Remove `c` at line 3, Add `x` at line
2 and Add `c` at line 3: when the lines differ, the branch condition
`(oldNext = -1 or newNext differs from -1) and newNext < 3` holds both when
neither lookahead finds a match (both are -1) and when the old line
reappears within the new side, so both `b` and `c` are first removed and
the remaining new lines are appended as additions. -/
theorem lineDiff_abc_axc_entries :
    lineDiff [['a'], ['b'], ['c']] [['a'], ['x'], ['c']] =
      [⟨.remove, 2, ['b']⟩, ⟨.remove, 3, ['c']⟩,
       ⟨.add, 2, ['x']⟩, ⟨.add, 3, ['c']⟩] := by
  simp [lineDiff, lineDiffAux, jsIdx]

/-- C10: the character diff reports zero changes exactly when the two
inputs are the same string — `changes = 0` holds if and only if the old and
new text coincide. -/
theorem characterDiff_changes_zero_iff (oldT newT : List Char) :
    (characterDiff oldT newT).changes = 0 ↔ oldT = newT :=
  changes_zero_iff_eq oldT newT

end PrecisionEditor
